import Mathlib

/-!
Verification of the cline-core Task orchestrator, Context Manager, streaming
assistant-message parser, tool routing and Capability Hub (McpHub) against
their specification.  JavaScript strings are modelled as `List Char`;
JavaScript numbers used as indices and counts are modelled as `Int`
(`Math.floor` of a real quotient with a positive divisor is `Int` floor
division, which is Lean's `/` on `Int`).
-/

namespace ClineCore

/-- Roles of conversation messages (`role: "user" | "assistant"`). -/
inductive Role
  | user
  | assistant
deriving DecidableEq, Repr

/-- One entry of `Task.apiConversationHistory`.  The content is abstracted to
the text of the message: the claims under verification only inspect roles and
whole-message identity. -/
structure ApiMessage where
  role : Role
  text : List Char
deriving DecidableEq, Repr

/-- Does the first list occur as a contiguous run at the start of the second?
Models a JavaScript string literal test at a position in a buffer. -/
def litMatches : List Char → List Char → Bool
  | [], _ => true
  | _ :: _, [] => false
  | p :: ps, c :: cs => p == c && litMatches ps cs

/-- Does `needle` occur as a contiguous substring of the second argument
(JavaScript `String.prototype.includes`)? -/
def hasSubstring (needle : List Char) : List Char → Bool
  | [] => litMatches needle []
  | c :: rest => litMatches needle (c :: rest) || hasSubstring needle rest

/-- Policies accepted by `ContextManager.getNextTruncationRange`
(`"none" | "lastTwo" | "half" | "quarter"`). -/
inductive KeepPolicy
  | none
  | lastTwo
  | half
  | quarter
deriving DecidableEq, Repr

/-- JavaScript `apiMessages[i]?.role`: `Option.none` models `undefined`,
returned for a negative or out-of-range index. -/
def roleAt (msgs : List ApiMessage) (i : Int) : Option Role :=
  if i < 0 then Option.none else (msgs.get? i.toNat).map (·.role)

/-- The `messagesToRemove` computation of
`ContextManager.getNextTruncationRange` (ContextManager.ts lines 45-55).
For `"quarter"`, `Math.floor(((len − s) * 3) / 4 / 2)` equals
`((len − s) * 3) / 8` in `Int` floor division. -/
def messagesToRemove (len startOfRest : Int) (keep : KeepPolicy) : Int :=
  match keep with
  | .none => max (len - startOfRest) 0
  | .lastTwo => max (len - startOfRest - 2) 0
  | .half => (len - startOfRest) / 4 * 2
  | .quarter => (len - startOfRest) * 3 / 8 * 2

/-- `ContextManager.getNextTruncationRange` (ContextManager.ts lines 36-65). -/
def getNextTruncationRange (apiMessages : List ApiMessage)
    (currentDeletedRange : Option (Int × Int)) (keep : KeepPolicy) : Int × Int :=
  let startOfRest : Int :=
    match currentDeletedRange with
    | some r => r.2 + 1
    | Option.none => 2
  let raw : Int :=
    startOfRest + messagesToRemove (apiMessages.length : Int) startOfRest keep - 1
  (2, if roleAt apiMessages raw ≠ some Role.assistant then raw - 1 else raw)

/-- JavaScript `messages.slice(start)` for a possibly negative `start`. -/
def jsSliceFrom (msgs : List ApiMessage) (start : Int) : List ApiMessage :=
  if start < 0 then msgs.drop (msgs.length + start).toNat
  else msgs.drop start.toNat

/-- `ContextManager.getTruncatedMessages` (ContextManager.ts lines 70-82). -/
def getTruncatedMessages (messages : List ApiMessage)
    (deletedRange : Option (Int × Int)) : List ApiMessage :=
  match deletedRange with
  | Option.none => messages
  | some r =>
      if messages.length ≤ 1 then messages
      else messages.take 2 ++ jsSliceFrom messages (r.2 + 1)

/-- The opposite role. -/
def Role.other : Role → Role
  | .user => .assistant
  | .assistant => .user

/-- The messages carry roles `r, r.other, r, r.other, …` from the front; with
`r = Role.user` this is a history alternating user/assistant from index 0. -/
def rolesFrom (r : Role) : List ApiMessage → Bool
  | [] => true
  | m :: rest => m.role == r && rolesFrom r.other rest

/-- A JavaScript error value as inspected by `isContextWindowExceededError`:
its `name` and `message` string properties. -/
structure JsError where
  name : List Char
  message : List Char
deriving DecidableEq, Repr

/-- `isContextWindowExceededError` from `src/api/index.ts` (lines 51-55).  A
JavaScript string is truthy exactly when it is non-empty, hence the
`!e.message.isEmpty` guards. -/
def isContextWindowExceededError (e : JsError) : Bool :=
  e.name == "ContextWindowExceededError".data
    || (!e.message.isEmpty && hasSubstring "maximum context length".data e.message)
    || (!e.message.isEmpty && hasSubstring "context window".data e.message)

/-- The pieces of `Task` state that the `catch` handler of
`Task.executeTaskLoop` reads or writes: the conversation history, the current
truncation range, the `ContextManager` truncation-notice entry (the
`contextHistoryUpdates` entry keyed by message index 1, reduced to the
timestamp of its single notice update), and `state.apiRequestCount`. -/
structure TaskLoopState where
  apiConversationHistory : List ApiMessage
  conversationHistoryDeletedRange : Option (Int × Int)
  truncationNotice : Option Int
  apiRequestCount : Nat
deriving DecidableEq, Repr

/-- `ContextManager.addTruncationNotice` (ContextManager.ts lines 135-146):
the notice is inserted only when none is present yet. -/
def addTruncationNotice (notice : Option Int) (timestamp : Int) : Option Int :=
  match notice with
  | Option.none => some timestamp
  | some t => some t

/-- What the `catch` handler of `Task.executeTaskLoop` decides:
`continue` (retry the iteration) or emit the error and rethrow. -/
inductive CatchOutcome
  | retryIteration
  | terminateLoop
deriving DecidableEq, Repr

/-- An observable `error` event carrying the error message. -/
inductive TaskErrorEvent
  | errorEvent (message : List Char)
deriving DecidableEq, Repr

/-- The `catch` block of `Task.executeTaskLoop` (Task.ts lines 321-336): on a
context-window-exceeded error it tightens the truncation range with the
`"quarter"` policy, records a truncation notice and retries the iteration;
on any other error it emits an `error` event and terminates the loop. -/
def executeTaskLoopCatch (st : TaskLoopState) (err : JsError) (now : Int) :
    CatchOutcome × TaskLoopState × List TaskErrorEvent :=
  if isContextWindowExceededError err then
    (CatchOutcome.retryIteration,
      { st with
        conversationHistoryDeletedRange :=
          some (getNextTruncationRange st.apiConversationHistory
            st.conversationHistoryDeletedRange KeepPolicy.quarter),
        truncationNotice := addTruncationNotice st.truncationNotice now },
      [])
  else
    (CatchOutcome.terminateLoop, st, [TaskErrorEvent.errorEvent err.message])

/-- JavaScript `toolName.split("/")` (all fields). -/
def splitOnSlash : List Char → List (List Char)
  | [] => [[]]
  | c :: r =>
      if c = '/' then [] :: splitOnSlash r
      else
        match splitOnSlash r with
        | f :: rest => (c :: f) :: rest
        | [] => [[c]]

/-- Where `Task.executeTool` sends a tool call: the Capability Hub
(`mcpHub.callTool(serverName, toolName, args)`) or the local `ToolRegistry`. -/
inductive ToolRoute
  | hub (serverName toolName : List Char)
  | registry (toolName : List Char)
deriving DecidableEq, Repr

/-- The routing branch of `Task.executeTool` (Task.ts lines 381-401):
`if (this.mcpHub && toolName.includes("/"))` the name is split with
`toolName.split("/", 2)` — the first two fields — and the call goes to the
hub; otherwise it goes to the local registry.  The fallback match arm is
unreachable: a name containing `'/'` splits into at least two fields. -/
def executeToolRoute (hubPresent : Bool) (toolName : List Char) : ToolRoute :=
  if hubPresent && toolName.contains '/' then
    match splitOnSlash toolName with
    | serverName :: mcpToolName :: _ => ToolRoute.hub serverName mcpToolName
    | _ => ToolRoute.hub toolName []
  else ToolRoute.registry toolName

/-- JSON values as produced by `JSON.parse` on a tool-invocation argument
payload.  Objects and arrays are abstracted to an opaque `compound` tag: no
verified claim inspects their structure, only their JavaScript truthiness
(compound values are always truthy). -/
inductive JsVal
  | null
  | bool (b : Bool)
  | num (n : Int)
  | str (s : List Char)
  | compound (tag : Nat)
deriving DecidableEq, Repr

/-- JavaScript truthiness of a JSON value. -/
def JsVal.truthy : JsVal → Bool
  | .null => false
  | .bool b => b
  | .num n => n != 0
  | .str s => !s.isEmpty
  | .compound _ => true

/-- The `ToolResult` type from `src/types.ts`, reduced to the fields `Task`
uses: success flag and content text. -/
structure ToolResult where
  success : Bool
  content : List Char
deriving DecidableEq, Repr

/-- An MCP `callTool` response, reduced to what `Task.executeTool` reads:
`isError` plus the content items, each reduced to its optional `text`. -/
structure McpCallResult where
  isError : Bool
  content : List (Option (List Char))
deriving DecidableEq, Repr

/-- `mcpResult.content.map(c => c.text || "").join("\n")` from
`Task.executeTool`. -/
def mcpJoin (items : List (Option (List Char))) : List Char :=
  List.intercalate "\n".data (items.map (fun o => o.getD []))

/-- The text of the user-role message `Task.executeTool` appends on success:
`Tool "name" result: content`. -/
def toolResultText (toolName content : List Char) : List Char :=
  "Tool \"".data ++ toolName ++ "\" result: ".data ++ content

/-- The text of the user-role message appended by the `catch` branch of
`Task.executeTool`: `Tool "name" failed: message`. -/
def toolFailText (toolName errMsg : List Char) : List Char :=
  "Tool \"".data ++ toolName ++ "\" failed: ".data ++ errMsg

/-- The messages `Task.executeTool` appends to `apiConversationHistory`
(Task.ts lines 374-442).  `hubCall` models the external
`McpHub.callTool` (which may throw, hence `Except`); `regExec` models
`ToolRegistry.executeTool`, which catches internally and never throws.
Either way exactly one user-role message is appended: the tool result on
success, the failure text when the call threw. -/
def executeToolMessages
    (hubCall : List Char → List Char → JsVal → Except (List Char) McpCallResult)
    (regExec : List Char → JsVal → ToolResult)
    (hubPresent : Bool) (toolName : List Char) (args : JsVal) : List ApiMessage :=
  match executeToolRoute hubPresent toolName with
  | ToolRoute.hub serverName mcpToolName =>
      match hubCall serverName mcpToolName args with
      | Except.ok mcpResult =>
          [⟨Role.user, toolResultText toolName (mcpJoin mcpResult.content)⟩]
      | Except.error e => [⟨Role.user, toolFailText toolName e⟩]
  | ToolRoute.registry n =>
      [⟨Role.user, toolResultText toolName (regExec n args).content⟩]

/-- The literal pieces of the tool-invocation pattern
`<tool_use>\s*<name>(.*?)<\/name>\s*<input>(.*?)<\/input>\s*<\/tool_use>`. -/
def openToolUse : List Char := "<tool_use>".data

def openNameTag : List Char := "<name>".data

def closeNameTag : List Char := "</name>".data

def openInputTag : List Char := "<input>".data

def closeInputTag : List Char := "</input>".data

def closeToolUse : List Char := "</tool_use>".data

/-- The characters matched by the JavaScript regular-expression class `\s`
(also exactly the set stripped by `String.prototype.trim`). -/
def jsWhitespace (c : Char) : Bool :=
  c == ' ' || c == '\t' || c == '\n' || c == '\r'
    || c == Char.ofNat 0x0B || c == Char.ofNat 0x0C
    || c == Char.ofNat 0xA0 || c == Char.ofNat 0x1680
    || (0x2000 ≤ c.toNat && c.toNat ≤ 0x200A)
    || c == Char.ofNat 0x2028 || c == Char.ofNat 0x2029
    || c == Char.ofNat 0x202F || c == Char.ofNat 0x205F
    || c == Char.ofNat 0x3000 || c == Char.ofNat 0xFEFF

/-- Drop the leading whitespace run. -/
def dropJsWs : List Char → List Char
  | [] => []
  | c :: rest => if jsWhitespace c then dropJsWs rest else c :: rest

/-- Split off the leading whitespace run: `s = (spanJsWs s).1 ++ (spanJsWs s).2`
and the second component does not start with whitespace. -/
def spanJsWs : List Char → List Char × List Char
  | [] => ([], [])
  | c :: rest =>
      if jsWhitespace c then
        let p := spanJsWs rest
        (c :: p.1, p.2)
      else ([], c :: rest)

/-- JavaScript `String.prototype.trim`. -/
def jsTrim (s : List Char) : List Char :=
  (dropJsWs (dropJsWs s).reverse).reverse

/-- Match `\s*` followed by the literal `pat` at the start of `s`, returning
`(consumed, rest)` with `s = consumed ++ rest`.  Every literal this is used
with starts with `'<'`, which is not whitespace, so the backtracking of a
greedy `\s*` can only succeed after consuming the whole whitespace run:
matching the run maximally is exact. -/
def wsThenLit (pat s : List Char) : Option (List Char × List Char) :=
  let p := spanJsWs s
  if litMatches pat p.2 then some (p.1 ++ pat, p.2.drop pat.length)
  else Option.none

/-- Try `lit1` then `\s*` then `lit2` at the start of `s`, returning
`(consumed, rest)`. -/
def seqHere (lit1 lit2 s : List Char) : Option (List Char × List Char) :=
  if litMatches lit1 s then
    match wsThenLit lit2 (s.drop lit1.length) with
    | some p => some (lit1 ++ p.1, p.2)
    | Option.none => Option.none
  else Option.none

/-- Lazy capture group followed by `lit1 \s* lit2`: the shortest prefix `g`
of `s` such that `lit1`, a whitespace run and `lit2` follow it.  Returns
`(g, consumed, rest)` with `s = g ++ consumed ++ rest`.  This is the
semantics of `(.*?)lit1\s*lit2` with the `s` regex flag: backtracking grows
the lazy group one character at a time from the left. -/
def lazySeqScan (lit1 lit2 : List Char) : List Char → Option (List Char × List Char × List Char)
  | [] =>
      match seqHere lit1 lit2 [] with
      | some p => some ([], p.1, p.2)
      | Option.none => Option.none
  | c :: r =>
      match seqHere lit1 lit2 (c :: r) with
      | some p => some ([], p.1, p.2)
      | Option.none =>
          match lazySeqScan lit1 lit2 r with
          | some q => some (c :: q.1, q.2.1, q.2.2)
          | Option.none => Option.none

/-- Anchored match of the tool-invocation pattern at the start of `s`.
Returns `(span, name, input, rest)` where `span` is the whole matched text
(`match[0]`), `name` is capture group 1, `input` is capture group 2 and
`rest` is the buffer after the match; `s = span ++ rest`. -/
def matchToolUseAt (s : List Char) : Option (List Char × List Char × List Char × List Char) :=
  if litMatches openToolUse s then
    match wsThenLit openNameTag (s.drop openToolUse.length) with
    | Option.none => Option.none
    | some p1 =>
        match lazySeqScan closeNameTag openInputTag p1.2 with
        | Option.none => Option.none
        | some p2 =>
            match lazySeqScan closeInputTag closeToolUse p2.2.2 with
            | Option.none => Option.none
            | some p3 =>
                some (openToolUse ++ p1.1 ++ p2.1 ++ p2.2.1 ++ p3.1 ++ p3.2.1,
                      p2.1, p3.1, p3.2.2)
  else Option.none

/-- Leftmost match of the tool-invocation pattern in a buffer: returns
`(pre, span, name, input, rest)` with the buffer equal to
`pre ++ span ++ rest`, `pre` being the text before the match.  `Option.none`
when `toolUseRegex.exec` returns `null`. -/
def findMatch : List Char → Option (List Char × List Char × List Char × List Char × List Char)
  | [] =>
      match matchToolUseAt [] with
      | some m => some ([], m.1, m.2.1, m.2.2.1, m.2.2.2)
      | Option.none => Option.none
  | c :: r =>
      match matchToolUseAt (c :: r) with
      | some m => some ([], m.1, m.2.1, m.2.2.1, m.2.2.2)
      | Option.none =>
          match findMatch r with
          | some q => some (c :: q.1, q.2.1, q.2.2.1, q.2.2.2.1, q.2.2.2.2)
          | Option.none => Option.none

/-- A parsed assistant content block (`AssistantMessageContent` from
`src/types.ts`).  The `unfinished` field is the source's `partial` flag. -/
inductive AssistantMessageContent
  | text (content : List Char) (unfinished : Bool)
  | toolUse (name : List Char) (input : JsVal) (unfinished : Bool)
deriving DecidableEq, Repr

/-- The `partial` flag of a block. -/
def blockUnfinished : AssistantMessageContent → Bool
  | .text _ u => u
  | .toolUse _ _ u => u

/-- Is the block a tool invocation? -/
def blockIsToolUse : AssistantMessageContent → Bool
  | .toolUse _ _ _ => true
  | .text _ _ => false

/-- The block pushed for one regex match of `Task.parseAssistantMessage`:
`JSON.parse(match[2])` succeeding yields a tool-invocation block; a parse
failure degrades the whole matched span (`match[0]`) to a text block. -/
def toolBlockOf (decode : List Char → Option JsVal) (span name inp : List Char) :
    List AssistantMessageContent :=
  match decode inp with
  | some v => [.toolUse name v false]
  | Option.none => [.text span false]

/-- The `while ((match = toolUseRegex.exec(message)) !== null)` loop of
`Task.parseAssistantMessage` (Task.ts lines 444-496), expressed as recursion
over the unconsumed suffix of the buffer.  `decode` models `JSON.parse`
applied to capture group 2.  Before each match the text since `lastIndex` is
trimmed and pushed when non-empty; after the final match the trimmed
remaining text becomes a text block with `partial = true`.  `fuel` only
bounds the recursion; the top-level wrapper passes more fuel than the buffer
length, and each match consumes at least the `<tool_use>` literal, so fuel
never runs out. -/
def parseLoop (decode : List Char → Option JsVal) :
    Nat → List Char → List AssistantMessageContent
  | 0, _ => []
  | fuel + 1, s =>
      match findMatch s with
      | Option.none => if (jsTrim s).isEmpty then [] else [.text (jsTrim s) true]
      | some (pre, span, name, inp, rest) =>
          (if (jsTrim pre).isEmpty then [] else [.text (jsTrim pre) false])
            ++ toolBlockOf decode span name inp
            ++ parseLoop decode fuel rest

/-- `Task.parseAssistantMessage` (Task.ts lines 444-508): the match loop,
then — when no block was produced and the message does not trim to nothing —
the entire untrimmed message as a single text block with `partial = true`. -/
def parseAssistantMessage (decode : List Char → Option JsVal)
    (message : List Char) : List AssistantMessageContent :=
  let content := parseLoop decode (message.length + 1) message
  if content.isEmpty && !(jsTrim message).isEmpty then [.text message true]
  else content

/-- The history messages appended when one block is presented: text blocks
only emit an event; tool-invocation blocks call `executeTool` — but only
under the source's truthiness guard `if (content.name && content.input)`
(Task.ts lines 357-361). -/
def presentBlockMessages
    (hubCall : List Char → List Char → JsVal → Except (List Char) McpCallResult)
    (regExec : List Char → JsVal → ToolResult)
    (hubPresent : Bool) : AssistantMessageContent → List ApiMessage
  | .text _ _ => []
  | .toolUse name input _ =>
      if !name.isEmpty && input.truthy then
        executeToolMessages hubCall regExec hubPresent name input
      else []

/-- `Task.presentAssistantMessage` (Task.ts lines 340-372) as it runs over a
parsed block sequence: the cursor over `assistantMessageContent` starting at
`currentStreamingContentIndex` is represented by the suffix of blocks not
yet presented.  The cursor advances past a block only when it is not
partial; a partial block stops the pass with `userMessageContentReady`
still false.  Returns the history messages appended by tool execution, in
order, and the final `userMessageContentReady` flag. -/
def presentAssistantMessage
    (hubCall : List Char → List Char → JsVal → Except (List Char) McpCallResult)
    (regExec : List Char → JsVal → ToolResult)
    (hubPresent : Bool) :
    List AssistantMessageContent → List ApiMessage × Bool
  | [] => ([], true)
  | b :: rest =>
      let appended := presentBlockMessages hubCall regExec hubPresent b
      if blockUnfinished b then (appended, false)
      else
        let p := presentAssistantMessage hubCall regExec hubPresent rest
        (appended ++ p.1, p.2)

/-- Does a block pass the tool-execution guard of
`Task.presentAssistantMessage`: a tool-invocation block whose name and
decoded input are both truthy? -/
def toolBlockActive : AssistantMessageContent → Bool
  | .toolUse name input _ => !name.isEmpty && input.truthy
  | .text _ _ => false

/-- The messages `executeTool` appends for a tool-invocation block. -/
def blockToolMessages
    (hubCall : List Char → List Char → JsVal → Except (List Char) McpCallResult)
    (regExec : List Char → JsVal → ToolResult)
    (hubPresent : Bool) : AssistantMessageContent → List ApiMessage
  | .toolUse name input _ => executeToolMessages hubCall regExec hubPresent name input
  | .text _ _ => []

/-- A capability-server configuration.  `payload` abstracts every field that
`deepEqual(JSON.parse(currentConnection.server.config), config)` compares
except the `disabled` flag, which `connectToServer` branches on.  The stored
`server.config` string is `JSON.stringify` of the configuration, so the
deep comparison is structural equality of configurations. -/
structure McpServerConfig where
  payload : List Char
  disabled : Bool
deriving DecidableEq, Repr

/-- Lifecycle state of a capability connection. -/
inductive McpConnStatus
  | disconnected
  | connecting
  | connected
deriving DecidableEq, Repr

/-- One `McpConnection` of the hub, reduced to the fields reconciliation
reads: server name, stored configuration and status.  The live client and
transport are represented only through the emitted `HubEvent`s. -/
structure McpConnection where
  name : List Char
  config : McpServerConfig
  status : McpConnStatus
deriving DecidableEq, Repr

/-- Observable transport actions of the hub: closing a connection
(`deleteConnection`) and establishing a live one (`connectToServer` on a
non-disabled configuration). -/
inductive HubEvent
  | disconnect (name : List Char)
  | connect (name : List Char)
deriving DecidableEq, Repr

/-- `McpHub.findConnection`. -/
def findConnection (conns : List McpConnection) (name : List Char) :
    Option McpConnection :=
  conns.find? (fun c => c.name == name)

/-- `McpHub.deleteConnection` (McpHub.ts lines 388-403): when a connection
with the name exists, its transport and client are closed and it is filtered
out of the list; otherwise nothing happens. -/
def deleteConnection (conns : List McpConnection) (name : List Char) :
    List McpConnection × List HubEvent :=
  match findConnection conns name with
  | some _ => (conns.filter (fun c => c.name != name), [HubEvent.disconnect name])
  | Option.none => (conns, [])

/-- `McpHub.connectToServer` (McpHub.ts lines 212-386), success path: any
existing connection of that name is filtered out, then either a disabled
placeholder record (no live transport) or a live connected record is
appended.  Transport/handshake failures are outside the verified claims. -/
def connectToServer (conns : List McpConnection) (name : List Char)
    (config : McpServerConfig) : List McpConnection × List HubEvent :=
  let base := conns.filter (fun c => c.name != name)
  if config.disabled then
    (base ++ [⟨name, config, McpConnStatus.disconnected⟩], [])
  else
    (base ++ [⟨name, config, McpConnStatus.connected⟩], [HubEvent.connect name])

/-- One iteration of the `for (const [name, config] of Object.entries(newServers))`
loop of `McpHub.updateServerConnections`: connect a new server, reconnect
(delete then connect) a server whose stored configuration differs, and leave
an unchanged server alone. -/
def updateStep (acc : List McpConnection × List HubEvent)
    (entry : List Char × McpServerConfig) : List McpConnection × List HubEvent :=
  match findConnection acc.1 entry.1 with
  | Option.none =>
      let p := connectToServer acc.1 entry.1 entry.2
      (p.1, acc.2 ++ p.2)
  | some current =>
      if current.config ≠ entry.2 then
        let p1 := deleteConnection acc.1 entry.1
        let p2 := connectToServer p1.1 entry.1 entry.2
        (p2.1, acc.2 ++ p1.2 ++ p2.2)
      else acc

/-- One iteration of the `for (const name of currentNames)` deletion loop of
`McpHub.updateServerConnections`: a current connection whose name is absent
from the new configuration set is deleted. -/
def removeStep (newNames : List (List Char))
    (acc : List McpConnection × List HubEvent) (c : McpConnection) :
    List McpConnection × List HubEvent :=
  if newNames.contains c.name then acc
  else
    let p := deleteConnection acc.1 c.name
    (p.1, acc.2 ++ p.2)

/-- `McpHub.updateServerConnections` (McpHub.ts lines 172-210): first every
current connection whose name is absent from the new configuration set is
deleted (the source iterates the name set of the connection list, here the
connection list itself — identical whenever names are unique, which the hub
maintains), then each entry of the new set is connected, reconnected or
skipped by `updateStep`. -/
def updateServerConnections (conns : List McpConnection)
    (newServers : List (List Char × McpServerConfig)) :
    List McpConnection × List HubEvent :=
  let newNames := newServers.map Prod.fst
  let phase1 := conns.foldl (removeStep newNames) (conns, [])
  newServers.foldl updateStep phase1

/-! ### Helper lemmas -/

theorem Role.other_other (r : Role) : r.other.other = r := by
  cases r <;> rfl

theorem rolesFrom_get (msgs : List ApiMessage) (r : Role) (n : Nat) (m : ApiMessage)
    (hr : rolesFrom r msgs = true) (hg : msgs.get? n = some m) :
    m.role = if n % 2 = 0 then r else r.other := by
  induction msgs generalizing r n with
  | nil => simp at hg
  | cons m0 rest ih =>
      rw [rolesFrom, Bool.and_eq_true, beq_iff_eq] at hr
      cases n with
      | zero =>
          simp only [List.get?] at hg
          cases hg
          simpa using hr.1
      | succ k =>
          simp only [List.get?] at hg
          have hm := ih r.other k hr.2 hg
          rw [hm]
          by_cases h : k % 2 = 0
          · have h1 : ¬((k + 1) % 2 = 0) := by omega
            simp [h, h1]
          · have h1 : (k + 1) % 2 = 0 := by omega
            simp [h, h1, Role.other_other]

theorem roleAt_alternating (msgs : List ApiMessage) (i : Int)
    (halt : rolesFrom Role.user msgs = true) (h0 : 0 ≤ i)
    (hl : i < (msgs.length : Int)) :
    roleAt msgs i = some (if i % 2 = 0 then Role.user else Role.assistant) := by
  have hn : i.toNat < msgs.length := by omega
  obtain ⟨m, hm⟩ : ∃ m, msgs.get? i.toNat = some m := by
    rw [List.get?_eq_get hn]
    exact ⟨_, rfl⟩
  have hrole := rolesFrom_get msgs Role.user i.toNat m halt hm
  unfold roleAt
  rw [if_neg (by omega), hm, Option.map_some', hrole]
  by_cases h : i % 2 = 0
  · have h2 : i.toNat % 2 = 0 := by omega
    simp [h, h2]
  · have h2 : ¬(i.toNat % 2 = 0) := by omega
    simp [h, h2, Role.other]

theorem messagesToRemove_bounds (len s : Int) (keep : KeepPolicy) (h : s ≤ len) :
    0 ≤ messagesToRemove len s keep ∧ messagesToRemove len s keep ≤ len - s := by
  cases keep <;> simp only [messagesToRemove] <;> omega

/-- Role-adjusted end index produced from an even `startOfRest` on an
alternating history: the result is odd, at least `startOfRest − 1` and
inside the history. -/
theorem nextRange_adjust (msgs : List ApiMessage) (mtr s : Int)
    (halt : rolesFrom Role.user msgs = true)
    (hs2 : 2 ≤ s) (hse : s % 2 = 0) (hm0 : 0 ≤ mtr)
    (hm1 : mtr ≤ (msgs.length : Int) - s) :
    s - 1 ≤ (if roleAt msgs (s + mtr - 1) ≠ some Role.assistant
        then s + mtr - 1 - 1 else s + mtr - 1)
      ∧ (if roleAt msgs (s + mtr - 1) ≠ some Role.assistant
        then s + mtr - 1 - 1 else s + mtr - 1) % 2 = 1
      ∧ (if roleAt msgs (s + mtr - 1) ≠ some Role.assistant
        then s + mtr - 1 - 1 else s + mtr - 1) < (msgs.length : Int)
      ∧ 1 ≤ (if roleAt msgs (s + mtr - 1) ≠ some Role.assistant
        then s + mtr - 1 - 1 else s + mtr - 1) := by
  have hraw0 : 0 ≤ s + mtr - 1 := by omega
  have hrawl : s + mtr - 1 < (msgs.length : Int) := by omega
  have hrole := roleAt_alternating msgs (s + mtr - 1) halt hraw0 hrawl
  by_cases hpar : (s + mtr - 1) % 2 = 0
  · have hmtr1 : 1 ≤ mtr := by omega
    rw [if_pos hpar] at hrole
    rw [if_pos (by rw [hrole]; simp)]
    omega
  · rw [if_neg hpar] at hrole
    rw [if_neg (by rw [hrole]; simp)]
    omega

/-! ### Claim C3 -/

/-- C3: on a history of exactly 10 messages alternating user/assistant from
index 0, with no prior range `getNextTruncationRange` with `"half"` returns
`[2,5]` and the truncated view keeps indices 0,1,6,7,8,9 (length 6); with
prior range `[2,5]`, `"quarter"` returns `[2,7]` and the truncated view keeps
indices 0,1,8,9 (length 4). -/
theorem c3_truncation_scenario (msgs : List ApiMessage)
    (hlen : msgs.length = 10) (halt : rolesFrom Role.user msgs = true) :
    getNextTruncationRange msgs Option.none KeepPolicy.half = (2, 5)
      ∧ getTruncatedMessages msgs (some (2, 5)) = msgs.take 2 ++ msgs.drop 6
      ∧ (getTruncatedMessages msgs (some (2, 5))).length = 6
      ∧ getNextTruncationRange msgs (some (2, 5)) KeepPolicy.quarter = (2, 7)
      ∧ getTruncatedMessages msgs (some (2, 7)) = msgs.take 2 ++ msgs.drop 8
      ∧ (getTruncatedMessages msgs (some (2, 7))).length = 4 := by
  have h5 : roleAt msgs 5 = some Role.assistant := by
    have h := roleAt_alternating msgs 5 halt (by norm_num) (by rw [hlen]; norm_num)
    norm_num at h
    exact h
  have h7 : roleAt msgs 7 = some Role.assistant := by
    have h := roleAt_alternating msgs 7 halt (by norm_num) (by rw [hlen]; norm_num)
    norm_num at h
    exact h
  have hv1 : getTruncatedMessages msgs (some (2, 5)) = msgs.take 2 ++ msgs.drop 6 := by
    simp only [getTruncatedMessages, jsSliceFrom, hlen]
    norm_num
    rfl
  have hv2 : getTruncatedMessages msgs (some (2, 7)) = msgs.take 2 ++ msgs.drop 8 := by
    simp only [getTruncatedMessages, jsSliceFrom, hlen]
    norm_num
    rfl
  refine ⟨?_, hv1, ?_, ?_, hv2, ?_⟩
  · simp only [getNextTruncationRange, messagesToRemove, hlen]
    norm_num [h5]
  · rw [hv1]
    simp [hlen]
  · simp only [getNextTruncationRange, messagesToRemove, hlen]
    norm_num [h7]
  · rw [hv2]
    simp [hlen]

/-- Witness for C3 at a concrete alternating 10-message history. -/
theorem c3_truncation_scenario_witness :
    getNextTruncationRange
        [⟨Role.user, []⟩, ⟨Role.assistant, []⟩, ⟨Role.user, []⟩, ⟨Role.assistant, []⟩,
          ⟨Role.user, []⟩, ⟨Role.assistant, []⟩, ⟨Role.user, []⟩, ⟨Role.assistant, []⟩,
          ⟨Role.user, []⟩, ⟨Role.assistant, []⟩]
        Option.none KeepPolicy.half = (2, 5) :=
  (c3_truncation_scenario
    [⟨Role.user, []⟩, ⟨Role.assistant, []⟩, ⟨Role.user, []⟩, ⟨Role.assistant, []⟩,
      ⟨Role.user, []⟩, ⟨Role.assistant, []⟩, ⟨Role.user, []⟩, ⟨Role.assistant, []⟩,
      ⟨Role.user, []⟩, ⟨Role.assistant, []⟩]
    (by decide) (by decide)).1

/-! ### Claim C4 -/

/-- C4 counterexample: on the non-alternating history
`[user, assistant, user, user, user, user]`, a `"half"` compaction returns
`[2,2]`, and feeding `[2,2]` back on the same history returns `[2,1]` — the
end index moves backward, so it does not only ever grow forward. -/
theorem c4_counterexample :
    getNextTruncationRange
        [⟨Role.user, []⟩, ⟨Role.assistant, []⟩, ⟨Role.user, []⟩,
          ⟨Role.user, []⟩, ⟨Role.user, []⟩, ⟨Role.user, []⟩]
        Option.none KeepPolicy.half = (2, 2)
      ∧ getNextTruncationRange
          [⟨Role.user, []⟩, ⟨Role.assistant, []⟩, ⟨Role.user, []⟩,
            ⟨Role.user, []⟩, ⟨Role.user, []⟩, ⟨Role.user, []⟩]
          (some (2, 2)) KeepPolicy.half = (2, 1)
      ∧ ¬((2 : Int) ≤ 1) := by
  refine ⟨by decide, by decide, by decide⟩

/-- C4 amended: the start index is always 2, for every message list, prior
range and policy.  On histories alternating user/assistant from index 0 the
end index only ever grows across successive compactions: the first call (no
prior range, history length ≥ 2) establishes an odd in-range end, and every
subsequent call fed an odd in-range prior end returns an end that is at
least the prior end and again odd and in range (so the invariant persists on
the same or a longer alternating history). -/
theorem c4_amended :
    (∀ (msgs : List ApiMessage) (cur : Option (Int × Int)) (keep : KeepPolicy),
        (getNextTruncationRange msgs cur keep).1 = 2)
    ∧ (∀ (msgs : List ApiMessage) (keep : KeepPolicy),
        rolesFrom Role.user msgs = true → 2 ≤ msgs.length →
        (getNextTruncationRange msgs Option.none keep).2 % 2 = 1
          ∧ 1 ≤ (getNextTruncationRange msgs Option.none keep).2
          ∧ (getNextTruncationRange msgs Option.none keep).2 < (msgs.length : Int))
    ∧ (∀ (msgs : List ApiMessage) (keep : KeepPolicy) (s e : Int),
        rolesFrom Role.user msgs = true →
        e % 2 = 1 → 1 ≤ e → e < (msgs.length : Int) →
        e ≤ (getNextTruncationRange msgs (some (s, e)) keep).2
          ∧ (getNextTruncationRange msgs (some (s, e)) keep).2 % 2 = 1
          ∧ 1 ≤ (getNextTruncationRange msgs (some (s, e)) keep).2
          ∧ (getNextTruncationRange msgs (some (s, e)) keep).2 < (msgs.length : Int)) := by
  refine ⟨?_, ?_, ?_⟩
  · intro msgs cur keep
    cases cur <;> rfl
  · intro msgs keep halt hlen2
    have hsl : (2 : Int) ≤ (msgs.length : Int) := by exact_mod_cast hlen2
    obtain ⟨hm0, hm1⟩ := messagesToRemove_bounds (msgs.length : Int) 2 keep hsl
    have h := nextRange_adjust msgs (messagesToRemove (msgs.length : Int) 2 keep) 2
      halt (le_refl 2) (by norm_num) hm0 hm1
    exact ⟨h.2.1, h.2.2.2, h.2.2.1⟩
  · intro msgs keep s e halt hodd h1 hlt
    obtain ⟨hm0, hm1⟩ :=
      messagesToRemove_bounds (msgs.length : Int) (e + 1) keep (by omega)
    have h := nextRange_adjust msgs
      (messagesToRemove (msgs.length : Int) (e + 1) keep) (e + 1)
      halt (by omega) (by omega) hm0 hm1
    exact ⟨le_trans (by omega) h.1, h.2.1, h.2.2.2, h.2.2.1⟩

/-- Witness for C4 amended at a concrete alternating history. -/
theorem c4_amended_witness :
    1 ≤ (getNextTruncationRange
        [⟨Role.user, []⟩, ⟨Role.assistant, []⟩, ⟨Role.user, []⟩, ⟨Role.assistant, []⟩]
        Option.none KeepPolicy.half).2 :=
  (c4_amended.2.1
    [⟨Role.user, []⟩, ⟨Role.assistant, []⟩, ⟨Role.user, []⟩, ⟨Role.assistant, []⟩]
    KeepPolicy.half (by decide) (by decide)).2.1

/-! ### Claim C6 -/

/-- C6: on every history longer than one message the truncated view starts
with the messages at indices 0 and 1, for every truncation range (and for no
range at all); and for a range with end `e ≥ −1` the view is exactly the
first two messages followed by everything after index `e` — the messages
inside the range are merely omitted from the view, the backing list being
untouched (the function is pure and returns a new list built from the
original's elements). -/
theorem c6_view_anchors :
    (∀ (msgs : List ApiMessage) (dr : Option (Int × Int)), 1 < msgs.length →
        (getTruncatedMessages msgs dr).take 2 = msgs.take 2)
    ∧ (∀ (msgs : List ApiMessage) (s e : Int), 1 < msgs.length → 0 ≤ e + 1 →
        getTruncatedMessages msgs (some (s, e)) =
          msgs.take 2 ++ msgs.drop (e + 1).toNat) := by
  have hmain : ∀ (msgs : List ApiMessage) (s e : Int), 1 < msgs.length → 0 ≤ e + 1 →
      getTruncatedMessages msgs (some (s, e)) =
        msgs.take 2 ++ msgs.drop (e + 1).toNat := by
    intro msgs s e hlen he
    simp only [getTruncatedMessages, jsSliceFrom]
    rw [if_neg (by omega), if_neg (by omega)]
  refine ⟨?_, hmain⟩
  intro msgs dr hlen
  match dr with
  | Option.none => rfl
  | some (s, e) =>
      simp only [getTruncatedMessages]
      rw [if_neg (by omega)]
      rw [List.take_append_eq_append_take, List.take_take]
      have h2 : (msgs.take 2).length = 2 := by
        rw [List.length_take]
        omega
      rw [h2]
      simp

/-- Witness for C6 at a concrete history and range. -/
theorem c6_view_anchors_witness :
    (getTruncatedMessages
        [⟨Role.user, []⟩, ⟨Role.assistant, []⟩, ⟨Role.user, []⟩, ⟨Role.assistant, []⟩]
        (some (2, 2))).take 2 =
      (List.take 2
        [⟨Role.user, []⟩, ⟨Role.assistant, []⟩, ⟨Role.user, []⟩, ⟨Role.assistant, []⟩]) :=
  c6_view_anchors.1
    [⟨Role.user, []⟩, ⟨Role.assistant, []⟩, ⟨Role.user, []⟩, ⟨Role.assistant, []⟩]
    (some (2, 2)) (by decide)

/-! ### Claim C10 -/

/-- C10: with a deleted range whose end index is 0, the truncated view of a
history of length ≥ 2 is `messages.slice(0,2) ++ messages.slice(1)`, so the
message at index 1 appears twice; and such a range is reachable:
`getNextTruncationRange` returns `[2,0]` whenever there is no prior range,
the computed removal count is 0 and the message at index 1 does not have the
assistant role. -/
theorem c10_duplicated_index_one :
    (∀ (m0 m1 : ApiMessage) (rest : List ApiMessage),
        getTruncatedMessages (m0 :: m1 :: rest) (some (2, 0)) =
          m0 :: m1 :: m1 :: rest)
    ∧ (∀ (msgs : List ApiMessage) (keep : KeepPolicy),
        messagesToRemove (msgs.length : Int) 2 keep = 0 →
        roleAt msgs 1 ≠ some Role.assistant →
        getNextTruncationRange msgs Option.none keep = (2, 0)) := by
  constructor
  · intro m0 m1 rest
    simp only [getTruncatedMessages, jsSliceFrom]
    rw [if_neg (by simp), if_neg (by omega)]
    rfl
  · intro msgs keep hmtr hrole
    simp only [getNextTruncationRange, hmtr]
    norm_num
    exact hrole

/-- Witness for C10: the two-user-message history `[user, user]` reaches the
range `[2,0]` via a `"half"` compaction, and the resulting view repeats the
message at index 1. -/
theorem c10_duplicated_index_one_witness :
    getTruncatedMessages [⟨Role.user, "a".data⟩, ⟨Role.user, "b".data⟩] (some (2, 0)) =
        [⟨Role.user, "a".data⟩, ⟨Role.user, "b".data⟩, ⟨Role.user, "b".data⟩]
      ∧ getNextTruncationRange [⟨Role.user, "a".data⟩, ⟨Role.user, "b".data⟩]
          Option.none KeepPolicy.half = (2, 0) :=
  ⟨c10_duplicated_index_one.1 ⟨Role.user, "a".data⟩ ⟨Role.user, "b".data⟩ [],
    c10_duplicated_index_one.2 [⟨Role.user, "a".data⟩, ⟨Role.user, "b".data⟩]
      KeepPolicy.half (by decide) (by decide)⟩

/-! ### Claim C2 -/

/-- C2: when the provider error is recognised as context-window-exceeded the
loop's catch handler computes a tighter truncation range with the
`"quarter"` policy, records a truncation notice and retries the iteration —
leaving the conversation history and `apiRequestCount` untouched and
emitting no error event; any other error is surfaced as an `error` event and
terminates the loop with the task state unchanged. -/
theorem c2_context_window_recovery (st : TaskLoopState) (err : JsError) (now : Int) :
    (isContextWindowExceededError err = true →
        (executeTaskLoopCatch st err now).1 = CatchOutcome.retryIteration
          ∧ (executeTaskLoopCatch st err now).2.1.conversationHistoryDeletedRange =
              some (getNextTruncationRange st.apiConversationHistory
                st.conversationHistoryDeletedRange KeepPolicy.quarter)
          ∧ (executeTaskLoopCatch st err now).2.1.truncationNotice ≠ Option.none
          ∧ (executeTaskLoopCatch st err now).2.1.apiRequestCount = st.apiRequestCount
          ∧ (executeTaskLoopCatch st err now).2.1.apiConversationHistory =
              st.apiConversationHistory
          ∧ (executeTaskLoopCatch st err now).2.2 = [])
    ∧ (isContextWindowExceededError err = false →
        executeTaskLoopCatch st err now =
          (CatchOutcome.terminateLoop, st, [TaskErrorEvent.errorEvent err.message])) := by
  constructor
  · intro h
    have hr : executeTaskLoopCatch st err now =
        (CatchOutcome.retryIteration,
          { st with
            conversationHistoryDeletedRange :=
              some (getNextTruncationRange st.apiConversationHistory
                st.conversationHistoryDeletedRange KeepPolicy.quarter),
            truncationNotice := addTruncationNotice st.truncationNotice now },
          []) := by
      simp [executeTaskLoopCatch, h]
    rw [hr]
    refine ⟨rfl, rfl, ?_, rfl, rfl, rfl⟩
    cases hn : st.truncationNotice <;> simp [addTruncationNotice]
  · intro h
    simp [executeTaskLoopCatch, h]

/-- Witness for C2: a `ContextWindowExceededError` retries with no error
event, and an unrelated error terminates with an error event. -/
theorem c2_context_window_recovery_witness :
    (executeTaskLoopCatch ⟨[], Option.none, Option.none, 3⟩
        ⟨"ContextWindowExceededError".data, []⟩ 0).2.2 = []
      ∧ executeTaskLoopCatch ⟨[], Option.none, Option.none, 3⟩
          ⟨"TypeError".data, "boom".data⟩ 0 =
        (CatchOutcome.terminateLoop, ⟨[], Option.none, Option.none, 3⟩,
          [TaskErrorEvent.errorEvent "boom".data]) :=
  ⟨((c2_context_window_recovery ⟨[], Option.none, Option.none, 3⟩
      ⟨"ContextWindowExceededError".data, []⟩ 0).1 (by decide)).2.2.2.2.2,
    (c2_context_window_recovery ⟨[], Option.none, Option.none, 3⟩
      ⟨"TypeError".data, "boom".data⟩ 0).2 (by decide)⟩

/-! ### Claims C5 and C9: tool-name routing -/

theorem splitOnSlash_append (pre post : List Char) (h : '/' ∉ pre) :
    splitOnSlash (pre ++ '/' :: post) = pre :: splitOnSlash post := by
  induction pre with
  | nil => simp [splitOnSlash]
  | cons c cs ih =>
      have hc : c ≠ '/' := by
        intro hh
        exact h (by simp [hh])
      have hcs : '/' ∉ cs := fun hm => h (List.mem_cons_of_mem _ hm)
      have hstep : (c :: cs) ++ '/' :: post = c :: (cs ++ '/' :: post) := rfl
      rw [hstep]
      simp only [splitOnSlash, if_neg hc]
      rw [ih hcs]

theorem splitOnSlash_head (s : List Char) :
    ∃ tl, splitOnSlash s = (s.takeWhile (fun c => c != '/')) :: tl := by
  induction s with
  | nil => exact ⟨[], rfl⟩
  | cons c cs ih =>
      by_cases hc : c = '/'
      · subst hc
        exact ⟨splitOnSlash cs, by simp [splitOnSlash, List.takeWhile]⟩
      · obtain ⟨tl, htl⟩ := ih
        refine ⟨tl, ?_⟩
        have hb : (c != '/') = true := by simp [hc]
        simp [splitOnSlash, if_neg hc, htl, List.takeWhile, hb]

/-- C5: with the Capability Hub configured, every tool name containing the
namespace separator `'/'` is routed to the hub, the server name being the
text before the first separator and the tool name the text between the first
and second separator (the second field of `split("/", 2)`) — never to the
local registry; and every name without a separator resolves against the
local registry. -/
theorem c5_namespaced_routing :
    (∀ (pre post : List Char), '/' ∉ pre →
        executeToolRoute true (pre ++ '/' :: post) =
          ToolRoute.hub pre (post.takeWhile (fun c => c != '/')))
    ∧ (∀ name : List Char, '/' ∉ name →
        executeToolRoute true name = ToolRoute.registry name) := by
  constructor
  · intro pre post hpre
    have hcontains : (pre ++ '/' :: post).contains '/' = true := by
      simp [List.contains, List.elem_iff]
    simp only [executeToolRoute, hcontains, Bool.true_and, if_true]
    obtain ⟨tl, htl⟩ := splitOnSlash_head post
    rw [splitOnSlash_append pre post hpre, htl]
  · intro name h
    have hc : name.contains '/' = false := by
      rw [Bool.eq_false_iff]
      intro hcon
      exact h (by simpa [List.contains, List.elem_iff] using hcon)
    simp only [executeToolRoute, Bool.true_and, hc, Bool.false_eq_true, if_false]

/-- Witness for C5: `"fs/read_file"` routes to `callTool("fs","read_file")`
and `"read_file"` resolves locally. -/
theorem c5_namespaced_routing_witness :
    executeToolRoute true "fs/read_file".data =
        ToolRoute.hub "fs".data "read_file".data
      ∧ executeToolRoute true "read_file".data =
        ToolRoute.registry "read_file".data :=
  ⟨c5_namespaced_routing.1 "fs".data "read_file".data (by decide),
    c5_namespaced_routing.2 "read_file".data (by decide)⟩

/-- C9: a tool name with two or more separators is split with limit 2:
`"a/b/c"` calls the hub with server `"a"` and tool `"b"`, everything after
the second separator being dropped and never forwarded anywhere. -/
theorem c9_split_limit_two (a b c : List Char) (ha : '/' ∉ a) (hb : '/' ∉ b) :
    executeToolRoute true (a ++ '/' :: (b ++ '/' :: c)) = ToolRoute.hub a b := by
  have hcontains : (a ++ '/' :: (b ++ '/' :: c)).contains '/' = true := by
    simp [List.contains, List.elem_iff]
  simp only [executeToolRoute, hcontains, Bool.true_and, if_true]
  rw [splitOnSlash_append a _ ha, splitOnSlash_append b c hb]

/-- Witness for C9 at the concrete name `"a/b/c"`. -/
theorem c9_split_limit_two_witness :
    executeToolRoute true "a/b/c".data = ToolRoute.hub "a".data "b".data :=
  c9_split_limit_two "a".data "b".data "c".data (by decide) (by decide)

/-! ### Claim C8: hub reconciliation -/

theorem findConnection_skip (xs ys : List McpConnection) (n : List Char)
    (h : ∀ c ∈ xs, c.name ≠ n) :
    findConnection (xs ++ ys) n = findConnection ys n := by
  induction xs with
  | nil => rfl
  | cons c rest ih =>
      have hc : (c.name == n) = false := by
        simp [h c (by simp)]
      simp only [findConnection, List.cons_append, List.find?, hc]
      exact ih (fun x hx => h x (by simp [hx]))

theorem findConnection_of_mem_nodup (conns : List McpConnection) (p : McpConnection)
    (hmem : p ∈ conns) (hnodup : (conns.map McpConnection.name).Nodup) :
    findConnection conns p.name = some p := by
  induction conns with
  | nil => cases hmem
  | cons c rest ih =>
      rw [List.map_cons, List.nodup_cons] at hnodup
      rcases List.mem_cons.mp hmem with h | h
      · subst h
        simp [findConnection, List.find?]
      · have hne : (c.name == p.name) = false := by
          have : c.name ≠ p.name := by
            intro hh
            exact hnodup.1 (hh ▸ List.mem_map_of_mem _ h)
          simp [this]
        simp only [findConnection, List.find?, hne]
        exact ih h hnodup.2

theorem foldl_removeStep_id (newNames : List (List Char))
    (cs : List McpConnection) :
    ∀ acc, (∀ c ∈ cs, newNames.contains c.name = true) →
      cs.foldl (removeStep newNames) acc = acc := by
  induction cs with
  | nil => intro acc _; rfl
  | cons c rest ih =>
      intro acc h
      rw [List.foldl_cons]
      rw [show removeStep newNames acc c = acc from by
        simp only [removeStep, h c (by simp), if_true]]
      exact ih acc (fun x hx => h x (by simp [hx]))

theorem foldl_updateStep_skip (entries : List (List Char × McpServerConfig)) :
    ∀ (st : List McpConnection) (evs : List HubEvent),
      (∀ e ∈ entries, ∃ c, findConnection st e.1 = some c ∧ c.config = e.2) →
      entries.foldl updateStep (st, evs) = (st, evs) := by
  induction entries with
  | nil => intro st evs _; rfl
  | cons e rest ih =>
      intro st evs h
      rw [List.foldl_cons]
      obtain ⟨c, hfind, hcfg⟩ := h e (by simp)
      rw [show updateStep (st, evs) e = (st, evs) from by
        simp only [updateStep, hfind]
        rw [if_neg (by simp [hcfg])]]
      exact ih st evs (fun x hx => h x (by simp [hx]))

/-- C8: when the new configuration set has exactly the same server names and
exactly one server's configuration value differs from the stored one (the
others equal, all names distinct, the changed configuration not disabled),
reconciliation disconnects and reconnects exactly that server — one
`disconnect` then one `connect` transport action and nothing else — and
every other connection record is left untouched (same records, same order);
the changed server's fresh connection is appended at the end. -/
theorem c8_reconnect_changed_only (pre post : List McpConnection)
    (t : McpConnection) (cfg' : McpServerConfig)
    (hnodup : ((pre ++ t :: post).map McpConnection.name).Nodup)
    (hchanged : t.config ≠ cfg')
    (henabled : cfg'.disabled = false) :
    updateServerConnections (pre ++ t :: post)
        ((pre ++ t :: post).map
          (fun c => (c.name, if c.name == t.name then cfg' else c.config))) =
      (pre ++ post ++ [⟨t.name, cfg', McpConnStatus.connected⟩],
        [HubEvent.disconnect t.name, HubEvent.connect t.name]) := by
  have hnames := hnodup
  rw [List.map_append, List.map_cons, List.nodup_append] at hnames
  obtain ⟨hpreN, htpostN, hdisj⟩ := hnames
  rw [List.nodup_cons] at htpostN
  obtain ⟨htN, hpostN⟩ := htpostN
  have hpreNe : ∀ c ∈ pre, c.name ≠ t.name := by
    intro c hc hh
    exact hdisj (List.mem_map_of_mem _ hc) (by simp [hh])
  have hpostNe : ∀ c ∈ post, c.name ≠ t.name := by
    intro c hc hh
    exact htN (hh ▸ List.mem_map_of_mem _ hc)
  -- the new configuration set, entrywise
  have hmap : (pre ++ t :: post).map
      (fun c => (c.name, if c.name == t.name then cfg' else c.config)) =
      pre.map (fun c => (c.name, c.config))
        ++ (t.name, cfg') :: post.map (fun c => (c.name, c.config)) := by
    rw [List.map_append, List.map_cons]
    congr 1
    · apply List.map_congr_left
      intro c hc
      simp [hpreNe c hc]
    · congr 1
      · simp
      · apply List.map_congr_left
        intro c hc
        simp [hpostNe c hc]
  rw [hmap]
  set conns := pre ++ t :: post with hconns
  set preE := pre.map (fun c => (c.name, c.config)) with hpreE
  set postE := post.map (fun c => (c.name, c.config)) with hpostE
  set fresh : McpConnection := ⟨t.name, cfg', McpConnStatus.connected⟩ with hfresh
  have hnewNames : (preE ++ (t.name, cfg') :: postE).map Prod.fst =
      conns.map McpConnection.name := by
    simp only [hconns, hpreE, hpostE, List.map_append, List.map_cons, List.map_map]
    rfl
  -- phase 1 deletes nothing: every current name is in the new set
  have hall : ∀ c ∈ conns,
      ((preE ++ (t.name, cfg') :: postE).map Prod.fst).contains c.name = true := by
    intro c hc
    have hmem : c.name ∈ (preE ++ (t.name, cfg') :: postE).map Prod.fst := by
      rw [hnewNames]
      exact List.mem_map_of_mem _ hc
    exact List.elem_iff.mpr hmem
  -- the connection of the changed server is found, all names being distinct
  have hfindt : findConnection conns t.name = some t :=
    findConnection_of_mem_nodup conns t (by simp [hconns]) hnodup
  -- filtering out the changed server's name leaves exactly the others
  have hfilpre : pre.filter (fun c => c.name != t.name) = pre :=
    List.filter_eq_self.mpr (fun c hc => by simp [hpreNe c hc])
  have hfilpost : post.filter (fun c => c.name != t.name) = post :=
    List.filter_eq_self.mpr (fun c hc => by simp [hpostNe c hc])
  have hfilter : conns.filter (fun c => c.name != t.name) = pre ++ post := by
    rw [hconns, List.filter_append, List.filter_cons]
    simp [hfilpre, hfilpost]
  have hfilterPP : (pre ++ post).filter (fun c => c.name != t.name) = pre ++ post := by
    rw [List.filter_append, hfilpre, hfilpost]
  -- the reconnect step itself
  have hdel : deleteConnection conns t.name = (pre ++ post, [HubEvent.disconnect t.name]) := by
    simp only [deleteConnection, hfindt, hfilter]
  have hcon : connectToServer (pre ++ post) t.name cfg' =
      (pre ++ post ++ [fresh], [HubEvent.connect t.name]) := by
    simp only [connectToServer, hfilterPP, henabled, Bool.false_eq_true, if_false, hfresh]
  have hstep : updateStep (conns, []) (t.name, cfg') =
      (pre ++ post ++ [fresh],
        [HubEvent.disconnect t.name, HubEvent.connect t.name]) := by
    simp only [updateStep, hfindt]
    rw [if_pos hchanged]
    simp only [hdel, hcon]
    rfl
  -- unchanged entries are skipped, before and after the reconnect
  have hskipPre : preE.foldl updateStep (conns, ([] : List HubEvent)) = (conns, []) := by
    apply foldl_updateStep_skip
    intro e he
    obtain ⟨p, hp, rfl⟩ := List.mem_map.mp he
    exact ⟨p, findConnection_of_mem_nodup conns p (by simp [hconns, hp]) hnodup, rfl⟩
  have hnodup2 : ((pre ++ post ++ [fresh]).map McpConnection.name).Nodup := by
    simp only [List.map_append, List.map_cons, List.map_nil]
    rw [List.nodup_append, List.nodup_append]
    refine ⟨⟨hpreN, hpostN, ?_⟩, List.nodup_singleton _, ?_⟩
    · intro x hx hmem
      exact hdisj hx (List.mem_cons_of_mem _ hmem)
    · intro x hx hc
      have hxt : x = t.name := by simpa [hfresh] using hc
      rcases List.mem_append.mp hx with h | h
      · exact hdisj h (by rw [hxt]; exact List.mem_cons_self _ _)
      · exact htN (hxt ▸ h)
  have hskipPost : postE.foldl updateStep
      ((pre ++ post ++ [fresh]), [HubEvent.disconnect t.name, HubEvent.connect t.name]) =
      ((pre ++ post ++ [fresh]), [HubEvent.disconnect t.name, HubEvent.connect t.name]) := by
    apply foldl_updateStep_skip
    intro e he
    obtain ⟨p, hp, rfl⟩ := List.mem_map.mp he
    refine ⟨p, findConnection_of_mem_nodup _ p ?_ hnodup2, rfl⟩
    exact List.mem_append_left _ (List.mem_append_right _ hp)
  -- assemble
  simp only [updateServerConnections]
  rw [foldl_removeStep_id _ _ _ hall]
  rw [List.foldl_append, hskipPre, List.foldl_cons, hstep, hskipPost]

/-- Witness for C8: two connected servers `"fs"` and `"git"`; the new set
changes only the payload of `"fs"` — the hub reconnects `"fs"` once and
leaves `"git"` untouched. -/
theorem c8_reconnect_changed_only_witness :
    updateServerConnections
        [⟨"fs".data, ⟨"p1".data, false⟩, McpConnStatus.connected⟩,
          ⟨"git".data, ⟨"q".data, false⟩, McpConnStatus.connected⟩]
        [("fs".data, ⟨"p2".data, false⟩), ("git".data, ⟨"q".data, false⟩)] =
      ([⟨"git".data, ⟨"q".data, false⟩, McpConnStatus.connected⟩,
          ⟨"fs".data, ⟨"p2".data, false⟩, McpConnStatus.connected⟩],
        [HubEvent.disconnect "fs".data, HubEvent.connect "fs".data]) :=
  c8_reconnect_changed_only []
    [⟨"git".data, ⟨"q".data, false⟩, McpConnStatus.connected⟩]
    ⟨"fs".data, ⟨"p1".data, false⟩, McpConnStatus.connected⟩
    ⟨"p2".data, false⟩ (by decide) (by decide) (by decide)

/-! ### Claims C1 and C7: streaming parser and block presentation -/

theorem parseLoop_of_none (decode : List Char → Option JsVal) (fuel : Nat)
    (s : List Char) (h : findMatch s = Option.none) :
    parseLoop decode (fuel + 1) s =
      if (jsTrim s).isEmpty then []
      else [AssistantMessageContent.text (jsTrim s) true] := by
  unfold parseLoop
  rw [h]

theorem parseLoop_of_some (decode : List Char → Option JsVal) (fuel : Nat)
    (s pre span name inp rest : List Char)
    (h : findMatch s = some (pre, span, name, inp, rest)) :
    parseLoop decode (fuel + 1) s =
      (if (jsTrim pre).isEmpty then []
        else [AssistantMessageContent.text (jsTrim pre) false])
        ++ toolBlockOf decode span name inp
        ++ parseLoop decode fuel rest := by
  conv_lhs => unfold parseLoop
  rw [h]

theorem toolBlockOf_of_some (decode : List Char → Option JsVal)
    (span name inp : List Char) (v : JsVal) (h : decode inp = some v) :
    toolBlockOf decode span name inp = [AssistantMessageContent.toolUse name v false] := by
  unfold toolBlockOf
  rw [h]

theorem dropLast_tail_subset {α : Type} (b : α) (rest : List α) :
    rest.dropLast ⊆ (b :: rest).dropLast := by
  cases rest with
  | nil =>
      intro x hx
      simp at hx
  | cons y ys =>
      intro x hx
      rw [show (b :: y :: ys).dropLast = b :: (y :: ys).dropLast from rfl]
      exact List.mem_cons_of_mem _ hx

theorem mem_dropLast_append {α : Type} (A B : List α) (b : α)
    (h : b ∈ (A ++ B).dropLast) : b ∈ A ∨ b ∈ B.dropLast := by
  rw [List.dropLast_append] at h
  by_cases hB : B.isEmpty
  · rw [if_pos hB] at h
    exact Or.inl (List.mem_of_mem_dropLast h)
  · rw [if_neg hB] at h
    exact List.mem_append.mp h

/-- Every block the match loop produces, except possibly the final trailing
text block, has `partial = false`. -/
theorem parseLoop_dropLast_finished (decode : List Char → Option JsVal) :
    ∀ (fuel : Nat) (s : List Char) (b : AssistantMessageContent),
      b ∈ (parseLoop decode fuel s).dropLast → blockUnfinished b = false := by
  intro fuel
  induction fuel with
  | zero =>
      intro s b hb
      simp [parseLoop] at hb
  | succ fuel ih =>
      intro s b hb
      cases hf : findMatch s with
      | none =>
          rw [parseLoop_of_none decode fuel s hf] at hb
          by_cases he : (jsTrim s).isEmpty
          · rw [if_pos he] at hb
            simp at hb
          · rw [if_neg he] at hb
            simp at hb
      | some m =>
          obtain ⟨pre, span, name, inp, rest⟩ := m
          rw [parseLoop_of_some decode fuel s pre span name inp rest hf] at hb
          rcases mem_dropLast_append _ _ _ hb with h | h
          · rcases List.mem_append.mp h with h1 | h1
            · by_cases he : (jsTrim pre).isEmpty
              · rw [if_pos he] at h1
                simp at h1
              · rw [if_neg he] at h1
                simp at h1
                rw [h1]
                rfl
            · unfold toolBlockOf at h1
              cases hd : decode inp <;> rw [hd] at h1 <;> simp at h1 <;> rw [h1] <;> rfl
          · exact ih rest b h

/-- Every block `Task.parseAssistantMessage` produces, except possibly the
final one, has `partial = false`. -/
theorem parseAssistantMessage_dropLast_finished (decode : List Char → Option JsVal)
    (msg : List Char) :
    ∀ b ∈ (parseAssistantMessage decode msg).dropLast, blockUnfinished b = false := by
  intro b hb
  simp only [parseAssistantMessage] at hb
  by_cases hcond : ((parseLoop decode (msg.length + 1) msg).isEmpty
      && !(jsTrim msg).isEmpty) = true
  · rw [if_pos hcond] at hb
    simp at hb
  · rw [if_neg hcond] at hb
    exact parseLoop_dropLast_finished decode _ msg b hb

/-- `Task.executeTool` appends exactly one message per call. -/
theorem executeToolMessages_length
    (hubCall : List Char → List Char → JsVal → Except (List Char) McpCallResult)
    (regExec : List Char → JsVal → ToolResult)
    (hubPresent : Bool) (name : List Char) (args : JsVal) :
    (executeToolMessages hubCall regExec hubPresent name args).length = 1 := by
  cases hroute : executeToolRoute hubPresent name with
  | hub s tn =>
      cases hcall : hubCall s tn args with
      | ok r => simp [executeToolMessages, hroute, hcall]
      | error e => simp [executeToolMessages, hroute, hcall]
  | registry n => simp [executeToolMessages, hroute]

/-- Every message `Task.executeTool` appends carries the user role. -/
theorem executeToolMessages_user_role
    (hubCall : List Char → List Char → JsVal → Except (List Char) McpCallResult)
    (regExec : List Char → JsVal → ToolResult)
    (hubPresent : Bool) (name : List Char) (args : JsVal) :
    ∀ m ∈ executeToolMessages hubCall regExec hubPresent name args,
      m.role = Role.user := by
  cases hroute : executeToolRoute hubPresent name with
  | hub s tn =>
      cases hcall : hubCall s tn args with
      | ok r =>
          intro m hm
          simp [executeToolMessages, hroute, hcall] at hm
          rw [hm]
      | error e =>
          intro m hm
          simp [executeToolMessages, hroute, hcall] at hm
          rw [hm]
  | registry n =>
      intro m hm
      simp [executeToolMessages, hroute] at hm
      rw [hm]

theorem presentBlockMessages_eq
    (hubCall : List Char → List Char → JsVal → Except (List Char) McpCallResult)
    (regExec : List Char → JsVal → ToolResult)
    (hubPresent : Bool) (b : AssistantMessageContent) :
    presentBlockMessages hubCall regExec hubPresent b =
      if toolBlockActive b then blockToolMessages hubCall regExec hubPresent b
      else [] := by
  cases b <;> rfl

/-- Presenting a block sequence in which only the final block may be partial
appends exactly the `executeTool` messages of the guard-passing
tool-invocation blocks, in block order. -/
theorem presentAssistantMessage_messages
    (hubCall : List Char → List Char → JsVal → Except (List Char) McpCallResult)
    (regExec : List Char → JsVal → ToolResult) (hubPresent : Bool) :
    ∀ (blocks : List AssistantMessageContent),
      (∀ b ∈ blocks.dropLast, blockUnfinished b = false) →
      (presentAssistantMessage hubCall regExec hubPresent blocks).1 =
        (blocks.filter toolBlockActive).flatMap
          (blockToolMessages hubCall regExec hubPresent) := by
  intro blocks
  induction blocks with
  | nil => intro _; rfl
  | cons b rest ih =>
      intro h
      cases hu : blockUnfinished b with
      | true =>
          have hrest : rest = [] := by
            cases hr : rest with
            | nil => rfl
            | cons x xs =>
                exfalso
                have hb : b ∈ (b :: rest).dropLast := by
                  rw [hr]
                  exact List.mem_cons_self _ _
                have hfalse := h b hb
                rw [hu] at hfalse
                cases hfalse
          subst hrest
          simp only [presentAssistantMessage, hu, if_true]
          rw [presentBlockMessages_eq]
          by_cases ha : toolBlockActive b = true
          · simp [List.filter_cons, ha]
          · simp [List.filter_cons, ha]
      | false =>
          have hrest : ∀ x ∈ rest.dropLast, blockUnfinished x = false :=
            fun x hx => h x (dropLast_tail_subset b rest hx)
          have hp := ih hrest
          simp only [presentAssistantMessage, hu, Bool.false_eq_true, if_false]
          rw [presentBlockMessages_eq, hp]
          by_cases ha : toolBlockActive b = true
          · simp [List.filter_cons, ha]
          · simp [List.filter_cons, ha]

/-- C1 counterexample: the buffer
`<tool_use><name>t</name><input>null</input></tool_use>` parses to exactly
one tool-invocation block (its payload `null` decodes successfully), yet
presenting the parsed content appends no ToolResult message at all: the
guard `if (content.name && content.input)` rejects the falsy decoded input
`null` and the tool is never executed. -/
theorem c1_counterexample :
    ((parseAssistantMessage
        (fun s => if s = "null".data then some JsVal.null else Option.none)
        "<tool_use><name>t</name><input>null</input></tool_use>".data).countP
      blockIsToolUse = 1)
    ∧ (presentAssistantMessage (fun _ _ _ => Except.ok ⟨false, []⟩)
        (fun _ _ => ⟨true, []⟩) true
        (parseAssistantMessage
          (fun s => if s = "null".data then some JsVal.null else Option.none)
          "<tool_use><name>t</name><input>null</input></tool_use>".data)).1 = [] := by
  constructor
  · decide
  · decide

/-- C1 amended: for every streamed assistant message, presenting the parsed
content appends exactly one ToolResult — a user-role message — per
tool-invocation block whose name is non-empty and whose decoded input is
truthy, in presentation order; tool-invocation blocks with a falsy name or
input are skipped and append nothing. -/
theorem c1_amended (decode : List Char → Option JsVal)
    (hubCall : List Char → List Char → JsVal → Except (List Char) McpCallResult)
    (regExec : List Char → JsVal → ToolResult)
    (hubPresent : Bool) (msg : List Char) :
    (presentAssistantMessage hubCall regExec hubPresent
        (parseAssistantMessage decode msg)).1 =
      ((parseAssistantMessage decode msg).filter toolBlockActive).flatMap
        (blockToolMessages hubCall regExec hubPresent)
    ∧ (∀ b, toolBlockActive b = true →
        (blockToolMessages hubCall regExec hubPresent b).length = 1
          ∧ ∀ m ∈ blockToolMessages hubCall regExec hubPresent b,
              m.role = Role.user) := by
  constructor
  · exact presentAssistantMessage_messages hubCall regExec hubPresent
      (parseAssistantMessage decode msg)
      (parseAssistantMessage_dropLast_finished decode msg)
  · intro b hb
    cases b with
    | text c u => simp [toolBlockActive] at hb
    | toolUse name input u =>
        exact ⟨executeToolMessages_length hubCall regExec hubPresent name input,
          executeToolMessages_user_role hubCall regExec hubPresent name input⟩

/-- Witness for C1 amended: a guard-passing tool block appends exactly one
message. -/
theorem c1_amended_witness :
    (blockToolMessages (fun _ _ _ => Except.ok ⟨false, [some "ok".data]⟩)
        (fun _ _ => ⟨true, "done".data⟩) true
        (AssistantMessageContent.toolUse "read_file".data (JsVal.num 1) false)).length
      = 1 :=
  ((c1_amended (fun _ => some (JsVal.num 1))
      (fun _ _ _ => Except.ok ⟨false, [some "ok".data]⟩)
      (fun _ _ => ⟨true, "done".data⟩) true []).2
    (AssistantMessageContent.toolUse "read_file".data (JsVal.num 1) false)
    (by decide)).1

/-- C7: a buffer containing exactly one well-formed tool-invocation tag
(the leftmost-match search succeeds once and finds no second match), with
non-empty prose before it, non-empty trailing prose after it and a decodable
argument payload, parses to exactly three blocks: the preceding prose as a
non-partial text block, the tool-invocation block, and the trailing prose as
a text block with `partial = true`. -/
theorem c7_single_invocation (decode : List Char → Option JsVal)
    (msg pre span name inp rest : List Char) (v : JsVal)
    (hfind : findMatch msg = some (pre, span, name, inp, rest))
    (hrest : findMatch rest = Option.none)
    (hpre : (jsTrim pre).isEmpty = false)
    (htrail : (jsTrim rest).isEmpty = false)
    (hdec : decode inp = some v) :
    parseAssistantMessage decode msg =
      [AssistantMessageContent.text (jsTrim pre) false,
        AssistantMessageContent.toolUse name v false,
        AssistantMessageContent.text (jsTrim rest) true] := by
  obtain ⟨k, hk⟩ : ∃ k, msg.length = k + 1 := by
    cases hm : msg with
    | nil =>
        rw [hm, show findMatch ([] : List Char) = Option.none from rfl] at hfind
        cases hfind
    | cons c cs => exact ⟨cs.length, rfl⟩
  have hpn : ¬((jsTrim pre).isEmpty = true) := by
    rw [hpre]
    exact Bool.false_ne_true
  have htn : ¬((jsTrim rest).isEmpty = true) := by
    rw [htrail]
    exact Bool.false_ne_true
  simp only [parseAssistantMessage]
  rw [parseLoop_of_some decode msg.length msg pre span name inp rest hfind]
  rw [hk, parseLoop_of_none decode k rest hrest]
  rw [toolBlockOf_of_some decode span name inp v hdec]
  rw [if_neg hpn, if_neg htn]
  simp

/-- Witness for C7 at a concrete buffer with prose around one invocation. -/
theorem c7_single_invocation_witness :
    parseAssistantMessage
        (fun s => if s = "1".data then some (JsVal.num 1) else Option.none)
        "Read it <tool_use><name>read_file</name><input>1</input></tool_use> Done".data =
      [AssistantMessageContent.text "Read it".data false,
        AssistantMessageContent.toolUse "read_file".data (JsVal.num 1) false,
        AssistantMessageContent.text "Done".data true] :=
  c7_single_invocation
    (fun s => if s = "1".data then some (JsVal.num 1) else Option.none)
    "Read it <tool_use><name>read_file</name><input>1</input></tool_use> Done".data
    "Read it ".data
    "<tool_use><name>read_file</name><input>1</input></tool_use>".data
    "read_file".data "1".data " Done".data (JsVal.num 1)
    (by decide) (by decide) (by decide) (by decide) (by decide)

end ClineCore
